import Mathlib

/-!
Verification development for the terrain chunk-streaming subsystem
(`src/chunks.rs`): chunk coordinate derivation, the per-tick streaming
update (`update_chunk_index` together with the deferred `spawn_chunk` /
`remove_chunks_from_index` commands), the layered fractal noise field
(`LayeredPerlin`), and the heightfield mesh/collider builder
(`generate_heightfield_mesh`).

Modelling conventions:
* `IVec2` chunk coordinates are `ℤ × ℤ`; `Entity` handles are `ℕ`.
* `ChunkIndex` is an association list `List ((ℤ × ℤ) × ℕ)` (keys unique in
  every state the system constructs).
* Floating point (`f32`/`f64`) values are modelled in `ℚ`.  The base
  `Perlin` generators come from the external `noise` crate and are
  modelled as an abstract family `base : ℕ → ℚ → ℚ → ℚ` indexed by seed.
* One streaming tick is `update_chunk_index`: both the spawn pass and the
  despawn pass read the tick-start snapshot of the index (in the source
  the index is a `Res` and all mutations go through deferred commands that
  are flushed after the system runs); the deferred effects are then
  applied: freshly spawned entries are inserted, then the collected keys
  are removed.
-/

/-- Concatenation of a list of lists, in order.  This is the shape produced
by the source's nested `for` loops that `push` onto a growing vector. -/
def concatAll : List (List α) → List α
  | [] => []
  | l :: ls => l ++ concatAll ls

theorem mem_concatAll {a : α} : ∀ {ls : List (List α)}, a ∈ concatAll ls ↔ ∃ l ∈ ls, a ∈ l
  | [] => by simp [concatAll]
  | l :: ls => by
    simp [concatAll, List.mem_append, @mem_concatAll _ a ls]

theorem length_concatAll : ∀ (ls : List (List α)), (concatAll ls).length = (ls.map List.length).sum
  | [] => rfl
  | l :: ls => by simp [concatAll, length_concatAll ls]

/-- Indexing into a concatenation of blocks of uniform length `m`:
position `x * m + z` lands in block `x` at offset `z`. -/
theorem concatAll_getElem (m : ℕ) :
    ∀ (ls : List (List α)) (x z : ℕ), (∀ l ∈ ls, l.length = m) → x < ls.length → z < m →
      (concatAll ls)[x * m + z]? = ls[x]?.bind (fun l => l[z]?)
  | [], x, _, _, hx, _ => absurd hx (by simp)
  | l :: ls, 0, z, hlen, _, hz => by
    have hl : l.length = m := hlen l (by simp)
    simp only [concatAll, Nat.zero_mul, Nat.zero_add]
    rw [List.getElem?_append_left (by omega)]
    simp
  | l :: ls, x + 1, z, hlen, hx, hz => by
    have hl : l.length = m := hlen l (by simp)
    have harith : (x + 1) * m + z = l.length + (x * m + z) := by
      rw [hl]; ring
    simp only [concatAll]
    rw [harith, List.getElem?_append_right (by omega)]
    have : l.length + (x * m + z) - l.length = x * m + z := by omega
    rw [this, concatAll_getElem m ls x z (fun l' hl' => hlen l' (by simp [hl']))
      (by simpa using hx) hz]
    simp

/- ### Chunk coordinate derivation (`update_chunk_index`, line 54)

`gt.translation().xz().as_ivec2() / IVec2::splat(FLOOR_SIZE)`:
the float world position is first converted with `as`, which truncates
toward zero, and the `i32` division also truncates toward zero. -/

def FLOOR_SIZE : ℤ := 8

/-- Truncation toward zero of a rational, the behaviour of Rust's
`f32 as i32` cast (for in-range values). -/
def truncToInt (q : ℚ) : ℤ := Int.tdiv q.num q.den

/-- Chunk coordinate of a world `(x, z)` position, as computed by
`update_chunk_index`: truncate each component to `i32`, then divide by
`FLOOR_SIZE` with Rust's truncating `i32` division. -/
def chunkCoordOfWorld (wx wz : ℚ) : ℤ × ℤ :=
  (Int.tdiv (truncToInt wx) FLOOR_SIZE, Int.tdiv (truncToInt wz) FLOOR_SIZE)

/- ### The streaming tick -/

/-- `ChunkRenderSettings` from the source. -/
structure ChunkRenderSettings where
  spawn_radius : ℤ
  despawn_radius : ℤ

/-- List of `n` consecutive integers starting at `a`. -/
def rangeInclAux (a : ℤ) : ℕ → List ℤ
  | 0 => []
  | n + 1 => a :: rangeInclAux (a + 1) n

/-- Inclusive integer range `a..=b`, as the list an `i32` range iterator
yields. -/
def rangeIncl (a b : ℤ) : List ℤ := rangeInclAux a (b - a + 1).toNat

theorem mem_rangeInclAux {x : ℤ} : ∀ {n : ℕ} {a : ℤ}, x ∈ rangeInclAux a n ↔ a ≤ x ∧ x < a + n
  | 0, a => by simp [rangeInclAux]
  | n + 1, a => by
    simp [rangeInclAux, mem_rangeInclAux (n := n) (a := a + 1)]
    omega

theorem mem_rangeIncl {a b x : ℤ} : x ∈ rangeIncl a b ↔ a ≤ x ∧ x ≤ b := by
  rw [rangeIncl, mem_rangeInclAux]
  omega

/-- The `(x, y)` offsets visited by the spawn pass: `y` outer, `x` inner,
both over `-spawn_radius..=spawn_radius`. -/
def spawnOffsets (r : ℤ) : List (ℤ × ℤ) :=
  concatAll ((rangeIncl (-r) r).map (fun y => (rangeIncl (-r) r).map (fun x => (x, y))))

theorem mem_spawnOffsets {r : ℤ} {o : ℤ × ℤ} :
    o ∈ spawnOffsets r ↔ -r ≤ o.1 ∧ o.1 ≤ r ∧ -r ≤ o.2 ∧ o.2 ≤ r := by
  obtain ⟨ox, oy⟩ := o
  rw [spawnOffsets, mem_concatAll]
  constructor
  · rintro ⟨l, hl, hmem⟩
    obtain ⟨y, hy, rfl⟩ := List.mem_map.mp hl
    obtain ⟨x, hx, heq⟩ := List.mem_map.mp hmem
    injection heq with heq1 heq2
    subst heq1
    subst heq2
    rw [mem_rangeIncl] at hy hx
    exact ⟨hx.1, hx.2, hy.1, hy.2⟩
  · rintro ⟨h1, h2, h3, h4⟩
    refine ⟨(rangeIncl (-r) r).map (fun x => (x, oy)), ?_, ?_⟩
    · exact List.mem_map.mpr ⟨oy, mem_rangeIncl.mpr ⟨h3, h4⟩, rfl⟩
    · exact List.mem_map.mpr ⟨ox, mem_rangeIncl.mpr ⟨h1, h2⟩, rfl⟩

/-- Lookup in the chunk index (`HashMap::contains_key` / lookup by key). -/
def findEntity : List ((ℤ × ℤ) × ℕ) → ℤ × ℤ → Option ℕ
  | [], _ => none
  | e :: rest, k => if e.1 = k then some e.2 else findEntity rest k

theorem findEntity_isSome_iff {idx : List ((ℤ × ℤ) × ℕ)} {k : ℤ × ℤ} :
    (findEntity idx k).isSome ↔ ∃ v, (k, v) ∈ idx := by
  induction idx with
  | nil => simp [findEntity]
  | cons e rest ih =>
    obtain ⟨k0, v0⟩ := e
    by_cases h : k0 = k
    · subst h
      constructor
      · intro _
        exact ⟨v0, List.mem_cons_self _ _⟩
      · intro _
        simp [findEntity]
    · have hstep : findEntity ((k0, v0) :: rest) k = findEntity rest k := by
        simp [findEntity, h]
      rw [hstep, ih]
      constructor
      · rintro ⟨v, hv⟩
        exact ⟨v, List.mem_cons_of_mem _ hv⟩
      · rintro ⟨v, hv⟩
        rcases List.mem_cons.mp hv with heq | hv'
        · injection heq with heq1 _
          exact absurd heq1.symm h
        · exact ⟨v, hv'⟩

theorem findEntity_eq_none_iff {idx : List ((ℤ × ℤ) × ℕ)} {k : ℤ × ℤ} :
    findEntity idx k = none ↔ ∀ v, (k, v) ∉ idx := by
  rw [← Option.not_isSome_iff_eq_none, findEntity_isSome_iff]
  push_neg
  rfl

/-- Keys requested by the spawn pass of one tick: every key in the spawn
square around `loc` that is not yet present in the index. -/
def spawnKeys (idx : List ((ℤ × ℤ) × ℕ)) (loc : ℤ × ℤ) (r : ℤ) : List (ℤ × ℤ) :=
  (((spawnOffsets r).map (fun o => (loc.1 + o.1, loc.2 + o.2))).filter
    (fun k => (findEntity idx k).isNone))

theorem mem_spawnKeys {idx : List ((ℤ × ℤ) × ℕ)} {loc k : ℤ × ℤ} {r : ℤ} :
    k ∈ spawnKeys idx loc r ↔
      ((∃ o ∈ spawnOffsets r, k = (loc.1 + o.1, loc.2 + o.2)) ∧ findEntity idx k = none) := by
  rw [spawnKeys, List.mem_filter]
  constructor
  · rintro ⟨h1, h2⟩
    obtain ⟨o, ho, heq⟩ := List.mem_map.mp h1
    exact ⟨⟨o, ho, heq.symm⟩, Option.isNone_iff_eq_none.mp h2⟩
  · rintro ⟨⟨o, ho, heq⟩, h2⟩
    exact ⟨List.mem_map.mpr ⟨o, ho, heq.symm⟩, Option.isNone_iff_eq_none.mpr h2⟩

/-- Sequential `Entity` allocation for the chunks spawned in one tick
(each `spawn_chunk` command spawns one fresh entity and inserts it). -/
def numberFrom (n : ℕ) : List (ℤ × ℤ) → List ((ℤ × ℤ) × ℕ)
  | [] => []
  | k :: ks => (k, n) :: numberFrom (n + 1) ks

theorem numberFrom_map_fst : ∀ (ks : List (ℤ × ℤ)) (n : ℕ), (numberFrom n ks).map Prod.fst = ks
  | [], _ => rfl
  | k :: ks, n => by simp [numberFrom, numberFrom_map_fst ks (n + 1)]

theorem fst_mem_of_mem_numberFrom {e : (ℤ × ℤ) × ℕ} :
    ∀ {ks : List (ℤ × ℤ)} {n : ℕ}, e ∈ numberFrom n ks → e.1 ∈ ks := by
  intro ks
  induction ks with
  | nil => intro n h; simp [numberFrom] at h
  | cons k ks ih =>
    intro n h
    rcases List.mem_cons.mp h with rfl | h
    · exact List.mem_cons_self _ _
    · exact List.mem_cons_of_mem _ (ih h)

theorem exists_mem_numberFrom_of_mem {k : ℤ × ℤ} :
    ∀ {ks : List (ℤ × ℤ)} {n : ℕ}, k ∈ ks → ∃ m, (k, m) ∈ numberFrom n ks := by
  intro ks
  induction ks with
  | nil => intro n h; simp at h
  | cons k0 ks ih =>
    intro n h
    rcases List.mem_cons.mp h with rfl | h
    · exact ⟨n, by simp [numberFrom]⟩
    · obtain ⟨m, hm⟩ := ih (n := n + 1) h
      exact ⟨m, List.mem_cons_of_mem _ hm⟩

/-- Test from the despawn pass: `d.x.abs() > despawn_radius || d.y.abs() >
despawn_radius` where `d = key - loc`. -/
def chebFar (dRad : ℤ) (loc k : ℤ × ℤ) : Bool :=
  decide (dRad < |k.1 - loc.1|) || decide (dRad < |k.2 - loc.2|)

theorem chebFar_eq_false_iff {dRad : ℤ} {loc k : ℤ × ℤ} :
    chebFar dRad loc k = false ↔ |k.1 - loc.1| ≤ dRad ∧ |k.2 - loc.2| ≤ dRad := by
  simp only [chebFar, Bool.or_eq_false_iff, decide_eq_false_iff_not, not_lt]

/-- The entries the despawn pass of one tick decides to destroy:
present in the tick-start index and outside the despawn radius (the pass
is skipped entirely when `despawn_radius < 0`). -/
def removedEntries (idx : List ((ℤ × ℤ) × ℕ)) (loc : ℤ × ℤ) (s : ChunkRenderSettings) :
    List ((ℤ × ℤ) × ℕ) :=
  if 0 ≤ s.despawn_radius then idx.filter (fun e => chebFar s.despawn_radius loc e.1) else []

/-- Result of one streaming tick: the new index, the next fresh entity id,
the keys whose generation was requested, and the destroyed entities. -/
structure TickResult where
  index : List ((ℤ × ℤ) × ℕ)
  next : ℕ
  spawned : List (ℤ × ℤ)
  destroyed : List ℕ

/-- One streaming tick (`update_chunk_index` plus the flush of its queued
commands): decide spawns and despawns on the tick-start snapshot, then
insert the freshly spawned entries and remove the collected keys. -/
def update_chunk_index (idx : List ((ℤ × ℤ) × ℕ)) (nextEntity : ℕ) (loc : ℤ × ℤ)
    (s : ChunkRenderSettings) : TickResult :=
  let sk := spawnKeys idx loc s.spawn_radius
  let newEntries := numberFrom nextEntity sk
  let removed := removedEntries idx loc s
  let removedKeys := removed.map Prod.fst
  { index := (idx ++ newEntries).filter (fun e => decide (e.1 ∉ removedKeys))
    next := nextEntity + sk.length
    spawned := sk
    destroyed := removed.map Prod.snd }

/-- Iterated ticks with `despawn_radius = -1`: each step gives an observer
chunk location and a spawn radius. -/
def runTicksNoDespawn : List ((ℤ × ℤ) × ℤ) → List ((ℤ × ℤ) × ℕ) → ℕ →
    List ((ℤ × ℤ) × ℕ) × ℕ
  | [], idx, n => (idx, n)
  | (loc, r) :: rest, idx, n =>
    let t := update_chunk_index idx n loc ⟨r, -1⟩
    runTicksNoDespawn rest t.index t.next

/- ### Layered fractal noise (`LayeredPerlin`, lines 124–154)

The base `Perlin` generators from the `noise` crate are external to the
repository; the model is parametric in an abstract, seed-indexed family
`base : ℕ → ℚ → ℚ → ℚ` standing for `fun seed => (Perlin::new seed).get`. -/

/-- `LayeredPerlin`, with the base generator family made explicit. -/
structure LayeredPerlin where
  layers : List (ℚ → ℚ → ℚ)
  lacunarity : ℚ
  persistance : ℚ

/-- `LayeredPerlin::new`: `num_layers` generators seeded `0..num_layers`,
lacunarity `2.0`, persistance `0.5`. -/
def LayeredPerlin.new (base : ℕ → ℚ → ℚ → ℚ) (num_layers : ℕ) : LayeredPerlin :=
  { layers := (List.range num_layers).map base
    lacunarity := 2
    persistance := 1 / 2 }

/-- The accumulation loop of `LayeredPerlin::get`. -/
def LayeredPerlin.getAux (x z lac per : ℚ) :
    List (ℚ → ℚ → ℚ) → ℚ → ℚ → ℚ → ℚ
  | [], _, _, acc => acc
  | layer :: rest, frequency, amplitude, acc =>
    LayeredPerlin.getAux x z lac per rest (frequency * lac) (amplitude * per)
      (acc + layer (x * frequency) (z * frequency) * amplitude)

/-- `LayeredPerlin::get`. -/
def LayeredPerlin.get (p : LayeredPerlin) (x z : ℚ) : ℚ :=
  LayeredPerlin.getAux x z p.lacunarity p.persistance p.layers 1 1 0

/-- Modelled from the spec (section 4.1 evaluation contract): the layered
noise value as a closed-form sum over layers, with `frequency_i = 2 ^ i`
and `amplitude_i = (1/2) ^ i` unfolding the stated recurrences. -/
def layeredNoiseSpec (base : ℕ → ℚ → ℚ → ℚ) (L : ℕ) (x z : ℚ) : ℚ :=
  ∑ i ∈ Finset.range L, base i (x * 2 ^ i) (z * 2 ^ i) * (1 / 2 : ℚ) ^ i

/- ### Heightfield mesh and collider builder (`generate_heightfield_mesh`) -/

/-- The grid-to-local-coordinate map: `(x as f32 / resolution as f32 - 0.5)
* FLOOR_SIZE as f32`.  Used for both the `x` and `z` axes. -/
def localPos (resolution i : ℕ) : ℚ := ((i : ℚ) / (resolution : ℚ) - 1 / 2) * 8

/-- `noise_scale` from the source (`0.02`). -/
def noise_scale : ℚ := 1 / 50

/-- `height_scale` from the source (`6.0`). -/
def height_scale : ℚ := 6

/-- The world x-coordinate at which grid column `x` of chunk `offset`
samples the noise field: `((offset.x * FLOOR_SIZE) as f64 + x_pos as f64)
* noise_scale`. -/
def sampleWorldX (offset : ℤ × ℤ) (resolution x : ℕ) : ℚ :=
  (((offset.1 * FLOOR_SIZE : ℤ) : ℚ) + localPos resolution x) * noise_scale

/-- The world z-coordinate at which grid row `z` of chunk `offset` samples
the noise field. -/
def sampleWorldZ (offset : ℤ × ℤ) (resolution z : ℕ) : ℚ :=
  (((offset.2 * FLOOR_SIZE : ℤ) : ℚ) + localPos resolution z) * noise_scale

/-- The height pushed for grid cell `(x, z)`: the layered noise sampled at
the true world coordinates, times `height_scale`.  This single value is
pushed both into the vertex position list and into the height matrix. -/
def heightAt (base : ℕ → ℚ → ℚ → ℚ) (offset : ℤ × ℤ) (resolution x z : ℕ) : ℚ :=
  (LayeredPerlin.new base 8).get (sampleWorldX offset resolution x)
      (sampleWorldZ offset resolution z)
    * height_scale

/-- The six vertex indices pushed for the quad at cell `(x, z)`
(`bottom_left, top_left, top_right, bottom_left, top_right,
bottom_right`), each truncated by the `as u32` cast. -/
def quadIndices (resolution x z : ℕ) : List ℕ :=
  let top_left := (x * (resolution + 1) + z) % 4294967296
  let top_right := (x * (resolution + 1) + z + 1) % 4294967296
  let bottom_left := ((x + 1) * (resolution + 1) + z) % 4294967296
  let bottom_right := ((x + 1) * (resolution + 1) + z + 1) % 4294967296
  [bottom_left, top_left, top_right, bottom_left, top_right, bottom_right]

/-- The render-mesh attributes produced by `generate_heightfield_mesh`
(smooth normals are computed afterwards from these positions and indices
and do not alter them). -/
structure MeshData where
  positions : List (ℚ × ℚ × ℚ)
  uvs : List (ℚ × ℚ)
  indices : List ℕ

/-- `generate_heightfield_mesh`: x-outer / z-inner generation of vertex
positions `(x_pos, height, z_pos)`, UVs `(x/R, z/R)`, the height matrix
row by row, and two triangles per grid cell. -/
def generate_heightfield_mesh (base : ℕ → ℚ → ℚ → ℚ) (offset : ℤ × ℤ) (resolution : ℕ) :
    MeshData × List (List ℚ) :=
  ({ positions := concatAll ((List.range (resolution + 1)).map (fun x =>
        (List.range (resolution + 1)).map (fun z =>
          (localPos resolution x, heightAt base offset resolution x z, localPos resolution z))))
     uvs := concatAll ((List.range (resolution + 1)).map (fun x =>
        (List.range (resolution + 1)).map (fun z =>
          ((x : ℚ) / (resolution : ℚ), (z : ℚ) / (resolution : ℚ)))))
     indices := concatAll ((List.range resolution).map (fun x =>
        concatAll ((List.range resolution).map (fun z => quadIndices resolution x z)))) },
   (List.range (resolution + 1)).map (fun x =>
     (List.range (resolution + 1)).map (fun z => heightAt base offset resolution x z)))

/-- Unfolding the `LayeredPerlin::get` loop over generators seeded
consecutively from `s`: the accumulator picks up one geometric term per
layer, with the frequency doubling and the amplitude halving. -/
theorem LayeredPerlin.getAux_sum (base : ℕ → ℚ → ℚ → ℚ) (x z : ℚ) :
    ∀ (n s : ℕ) (freq amp acc : ℚ),
      LayeredPerlin.getAux x z 2 (1 / 2) ((List.range' s n).map base) freq amp acc
        = acc + ∑ i ∈ Finset.range n,
            base (s + i) (x * (freq * 2 ^ i)) (z * (freq * 2 ^ i)) * (amp * (1 / 2 : ℚ) ^ i)
  | 0, s, freq, amp, acc => by simp [LayeredPerlin.getAux]
  | n + 1, s, freq, amp, acc => by
    rw [List.range'_succ s n 1, List.map_cons]
    show LayeredPerlin.getAux x z 2 (1 / 2) ((List.range' (s + 1) n).map base) (freq * 2)
        (amp * (1 / 2)) (acc + base s (x * freq) (z * freq) * amp) = _
    rw [LayeredPerlin.getAux_sum base x z n (s + 1) (freq * 2) (amp * (1 / 2))
      (acc + base s (x * freq) (z * freq) * amp)]
    rw [Finset.sum_range_succ' (fun i =>
      base (s + i) (x * (freq * 2 ^ i)) (z * (freq * 2 ^ i)) * (amp * (1 / 2 : ℚ) ^ i)) n]
    have hsum : ∑ i ∈ Finset.range n,
        base (s + 1 + i) (x * (freq * 2 * 2 ^ i)) (z * (freq * 2 * 2 ^ i))
          * (amp * (1 / 2) * (1 / 2 : ℚ) ^ i)
      = ∑ i ∈ Finset.range n,
        base (s + (i + 1)) (x * (freq * 2 ^ (i + 1))) (z * (freq * 2 ^ (i + 1)))
          * (amp * (1 / 2 : ℚ) ^ (i + 1)) := by
      refine Finset.sum_congr rfl (fun i _ => ?_)
      have h1 : s + 1 + i = s + (i + 1) := by omega
      have h2 : x * (freq * 2 * 2 ^ i) = x * (freq * 2 ^ (i + 1)) := by ring
      have h3 : z * (freq * 2 * 2 ^ i) = z * (freq * 2 ^ (i + 1)) := by ring
      have h4 : amp * (1 / 2) * (1 / 2 : ℚ) ^ i = amp * (1 / 2 : ℚ) ^ (i + 1) := by ring
      rw [h1, h2, h3, h4]
    rw [hsum]
    have h0 : base (s + 0) (x * (freq * 2 ^ 0)) (z * (freq * 2 ^ 0)) * (amp * (1 / 2 : ℚ) ^ 0)
        = base s (x * freq) (z * freq) * amp := by
      norm_num
    rw [h0]
    ring

/-- Vertex lookup at the flattened index `x * (R + 1) + z` in the
generated position list. -/
theorem positions_getElem (base : ℕ → ℚ → ℚ → ℚ) (offset : ℤ × ℤ) (resolution x z : ℕ)
    (hx : x ≤ resolution) (hz : z ≤ resolution) :
    (generate_heightfield_mesh base offset resolution).1.positions[x * (resolution + 1) + z]?
      = some (localPos resolution x, heightAt base offset resolution x z,
          localPos resolution z) := by
  have hrow : ∀ l ∈ (List.range (resolution + 1)).map (fun x =>
      (List.range (resolution + 1)).map (fun z =>
        (localPos resolution x, heightAt base offset resolution x z, localPos resolution z))),
      l.length = resolution + 1 := by
    intro l hl
    obtain ⟨x0, _, rfl⟩ := List.mem_map.mp hl
    simp
  rw [show (generate_heightfield_mesh base offset resolution).1.positions
      = concatAll ((List.range (resolution + 1)).map (fun x =>
          (List.range (resolution + 1)).map (fun z =>
            (localPos resolution x, heightAt base offset resolution x z,
              localPos resolution z)))) from rfl]
  rw [concatAll_getElem (resolution + 1) _ x z hrow (by simpa using Nat.lt_succ_of_le hx)
    (Nat.lt_succ_of_le hz)]
  rw [List.getElem?_map, List.getElem?_range (Nat.lt_succ_of_le hx)]
  simp only [Option.map_some', Option.some_bind]
  rw [List.getElem?_map, List.getElem?_range (Nat.lt_succ_of_le hz)]
  rfl

/-- Height-matrix lookup `height_matrix[x][z]`. -/
theorem heights_getElem (base : ℕ → ℚ → ℚ → ℚ) (offset : ℤ × ℤ) (resolution x z : ℕ)
    (hx : x ≤ resolution) (hz : z ≤ resolution) :
    ((generate_heightfield_mesh base offset resolution).2[x]?).bind (fun col => col[z]?)
      = some (heightAt base offset resolution x z) := by
  rw [show (generate_heightfield_mesh base offset resolution).2
      = (List.range (resolution + 1)).map (fun x =>
          (List.range (resolution + 1)).map (fun z =>
            heightAt base offset resolution x z)) from rfl]
  rw [List.getElem?_map, List.getElem?_range (Nat.lt_succ_of_le hx)]
  simp only [Option.map_some', Option.some_bind]
  rw [List.getElem?_map, List.getElem?_range (Nat.lt_succ_of_le hz)]
  rfl

/-- The new index of a tick, written out. -/
theorem update_index_eq (idx : List ((ℤ × ℤ) × ℕ)) (n : ℕ) (loc : ℤ × ℤ)
    (s : ChunkRenderSettings) :
    (update_chunk_index idx n loc s).index
      = (idx ++ numberFrom n (spawnKeys idx loc s.spawn_radius)).filter
          (fun e => decide (e.1 ∉ (removedEntries idx loc s).map Prod.fst)) := rfl

/-- The generation requests of a tick, written out. -/
theorem update_spawned_eq (idx : List ((ℤ × ℤ) × ℕ)) (n : ℕ) (loc : ℤ × ℤ)
    (s : ChunkRenderSettings) :
    (update_chunk_index idx n loc s).spawned = spawnKeys idx loc s.spawn_radius := rfl

/-- Membership in the post-tick index: the entry survived from the old
index or was freshly spawned, and its key was not despawned. -/
theorem mem_update_index {idx : List ((ℤ × ℤ) × ℕ)} {n : ℕ} {loc : ℤ × ℤ}
    {s : ChunkRenderSettings} {e : (ℤ × ℤ) × ℕ} :
    e ∈ (update_chunk_index idx n loc s).index ↔
      (e ∈ idx ∨ e ∈ numberFrom n (spawnKeys idx loc s.spawn_radius))
        ∧ e.1 ∉ (removedEntries idx loc s).map Prod.fst := by
  rw [update_index_eq, List.mem_filter, List.mem_append]
  simp only [decide_eq_true_eq]

/-- With a negative despawn radius the despawn pass is skipped, so a tick
only appends the freshly spawned entries. -/
theorem update_index_of_neg_despawn {idx : List ((ℤ × ℤ) × ℕ)} {n : ℕ} {loc : ℤ × ℤ}
    {s : ChunkRenderSettings} (hd : s.despawn_radius < 0) :
    (update_chunk_index idx n loc s).index
      = idx ++ numberFrom n (spawnKeys idx loc s.spawn_radius) := by
  rw [update_index_eq, removedEntries, if_neg (by omega)]
  refine List.filter_eq_self.mpr (fun a _ => ?_)
  simp

/-- If no key of the spawn square was despawned this tick, then right
after the tick every key of the spawn square is present, so the next
tick's spawn pass requests nothing. -/
theorem spawnKeys_after_tick_nil {idx : List ((ℤ × ℤ) × ℕ)} {n : ℕ} {loc : ℤ × ℤ}
    {s : ChunkRenderSettings}
    (hrk : ∀ k : ℤ × ℤ, (∃ o ∈ spawnOffsets s.spawn_radius, k = (loc.1 + o.1, loc.2 + o.2)) →
      k ∉ (removedEntries idx loc s).map Prod.fst) :
    spawnKeys (update_chunk_index idx n loc s).index loc s.spawn_radius = [] := by
  apply List.filter_eq_nil_iff.mpr
  intro k hk hnone
  obtain ⟨o, ho, heq⟩ := List.mem_map.mp hk
  have hnone' : findEntity (update_chunk_index idx n loc s).index k = none :=
    Option.isNone_iff_eq_none.mp hnone
  rw [findEntity_eq_none_iff] at hnone'
  have hcand : ∃ o ∈ spawnOffsets s.spawn_radius, k = (loc.1 + o.1, loc.2 + o.2) :=
    ⟨o, ho, heq.symm⟩
  have hnotrem := hrk k hcand
  cases hfind : findEntity idx k with
  | some v =>
    have hsome : (findEntity idx k).isSome := by rw [hfind]; rfl
    obtain ⟨v', hv'⟩ := findEntity_isSome_iff.mp hsome
    exact hnone' v' (mem_update_index.mpr ⟨Or.inl hv', hnotrem⟩)
  | none =>
    have hks : k ∈ spawnKeys idx loc s.spawn_radius := mem_spawnKeys.mpr ⟨hcand, hfind⟩
    obtain ⟨m, hm⟩ := exists_mem_numberFrom_of_mem (n := n) hks
    exact hnone' m (mem_update_index.mpr ⟨Or.inr hm, hnotrem⟩)

/-- With the intended hysteresis configuration, every entry surviving a
tick is within the despawn radius, so the next tick despawns nothing. -/
theorem removed_after_tick_nil {idx : List ((ℤ × ℤ) × ℕ)} {n : ℕ} {loc : ℤ × ℤ}
    {s : ChunkRenderSettings} (hpos : 0 ≤ s.despawn_radius)
    (hle : s.spawn_radius ≤ s.despawn_radius) :
    removedEntries (update_chunk_index idx n loc s).index loc s = [] := by
  rw [removedEntries, if_pos hpos]
  apply List.filter_eq_nil_iff.mpr
  intro e he
  obtain ⟨hsrc, hnotrem⟩ := mem_update_index.mp he
  rcases hsrc with hin | hnew
  · cases hc : chebFar s.despawn_radius loc e.1 with
    | false => simp [hc]
    | true =>
      exfalso
      apply hnotrem
      rw [removedEntries, if_pos hpos]
      exact List.mem_map.mpr ⟨e, List.mem_filter.mpr ⟨hin, hc⟩, rfl⟩
  · have hk := fst_mem_of_mem_numberFrom hnew
    obtain ⟨⟨o, ho, hko⟩, _⟩ := mem_spawnKeys.mp hk
    rw [mem_spawnOffsets] at ho
    have hfalse : chebFar s.despawn_radius loc e.1 = false := by
      rw [chebFar_eq_false_iff, hko]
      constructor
      · show |loc.1 + o.1 - loc.1| ≤ s.despawn_radius
        have harith : loc.1 + o.1 - loc.1 = o.1 := by ring
        rw [harith]
        exact abs_le.mpr ⟨by omega, by omega⟩
      · show |loc.2 + o.2 - loc.2| ≤ s.despawn_radius
        have harith : loc.2 + o.2 - loc.2 = o.2 := by ring
        rw [harith]
        exact abs_le.mpr ⟨by omega, by omega⟩
    simp [hfalse]

/-- Keys of the spawn square are never despawned in the same tick, given
the hysteresis configuration (or despawning disabled). -/
theorem spawn_square_not_removed {idx : List ((ℤ × ℤ) × ℕ)} {loc : ℤ × ℤ}
    {s : ChunkRenderSettings}
    (hs : s.despawn_radius < 0 ∨ s.spawn_radius ≤ s.despawn_radius) (k : ℤ × ℤ)
    (hcand : ∃ o ∈ spawnOffsets s.spawn_radius, k = (loc.1 + o.1, loc.2 + o.2)) :
    k ∉ (removedEntries idx loc s).map Prod.fst := by
  intro hmem
  obtain ⟨o, ho, hko⟩ := hcand
  rw [mem_spawnOffsets] at ho
  rw [removedEntries] at hmem
  rcases lt_or_le s.despawn_radius 0 with hneg | hpos
  · rw [if_neg (by omega)] at hmem
    simp at hmem
  · rcases hs with hs | hle
    · omega
    · rw [if_pos hpos] at hmem
      obtain ⟨e, hef, hek⟩ := List.mem_map.mp hmem
      have hfar := (List.mem_filter.mp hef).2
      rw [hek, hko] at hfar
      have hfalse : chebFar s.despawn_radius loc (loc.1 + o.1, loc.2 + o.2) = false := by
        rw [chebFar_eq_false_iff]
        constructor
        · show |loc.1 + o.1 - loc.1| ≤ s.despawn_radius
          have harith : loc.1 + o.1 - loc.1 = o.1 := by ring
          rw [harith]
          exact abs_le.mpr ⟨by omega, by omega⟩
        · show |loc.2 + o.2 - loc.2| ≤ s.despawn_radius
          have harith : loc.2 + o.2 - loc.2 = o.2 := by ring
          rw [harith]
          exact abs_le.mpr ⟨by omega, by omega⟩
      rw [hfalse] at hfar
      exact Bool.false_ne_true hfar

/-- A fixed concrete base noise family, used to instantiate witnesses. -/
def zeroNoise : ℕ → ℚ → ℚ → ℚ := fun _ _ _ => 0

/-- C1: for every chunk offset and every resolution R ≥ 1, for every
`(x, z)` with `0 ≤ x ≤ R` and `0 ≤ z ≤ R`, the render-mesh vertex at
flattened index `x * (R + 1) + z` has a Y-coordinate exactly equal to
`height_matrix[x][z]` (both are the single `heightAt` value pushed by the
shared generation pass of `generate_heightfield_mesh`). -/
theorem c1_mesh_collider_consistency (base : ℕ → ℚ → ℚ → ℚ) (offset : ℤ × ℤ) (R x z : ℕ)
    (hR : 1 ≤ R) (hx : x ≤ R) (hz : z ≤ R) :
    ((generate_heightfield_mesh base offset R).1.positions[x * (R + 1) + z]?).map
        (fun v => v.2.1)
      = some (heightAt base offset R x z)
    ∧ ((generate_heightfield_mesh base offset R).2[x]?).bind (fun col => col[z]?)
      = some (heightAt base offset R x z) := by
  constructor
  · rw [positions_getElem base offset R x z hx hz]
    rfl
  · exact heights_getElem base offset R x z hx hz

/-- Witness for C1 at `offset = (0, 0)`, `R = 1`, `(x, z) = (1, 0)`. -/
theorem c1_witness :
    1 ≤ 1 ∧ 1 ≤ 1 ∧ 0 ≤ 1
    ∧ (((generate_heightfield_mesh zeroNoise (0, 0) 1).1.positions[1 * (1 + 1) + 0]?).map
          (fun v => v.2.1)
        = some (heightAt zeroNoise (0, 0) 1 1 0)
      ∧ ((generate_heightfield_mesh zeroNoise (0, 0) 1).2[1]?).bind (fun col => col[0]?)
        = some (heightAt zeroNoise (0, 0) 1 1 0)) :=
  ⟨le_refl 1, le_refl 1, Nat.zero_le 1,
    c1_mesh_collider_consistency zeroNoise (0, 0) 1 1 0 (le_refl 1) (le_refl 1) (Nat.zero_le 1)⟩

/-- C2 counterexample: the claim says the chunk coordinate is obtained by
floor division, so that world `x = -1.0` maps to chunk `x = -1`; but
`update_chunk_index` truncates toward zero twice (`as_ivec2`, then `i32`
division), so world `x = -1.0` maps to chunk `x = 0`. -/
theorem c2_counterexample :
    (chunkCoordOfWorld (-1) 0).1 = 0 ∧ (chunkCoordOfWorld (-1) 0).1 ≠ -1 := by
  constructor
  · rfl
  · intro h
    exact absurd ((rfl : (chunkCoordOfWorld (-1) 0).1 = 0) ▸ h) (by decide)

/-- C2 amended: the observer's chunk coordinate is derived by truncating
(toward-zero) conversion and truncating division by `FLOOR_SIZE`.  This
agrees with floor division for nonnegative world coordinates, but for a
world position with `x = -1.0` the derived chunk coordinate has `x = 0`,
not `-1`. -/
theorem c2_amended :
    (∀ wx : ℤ, 0 ≤ wx → (chunkCoordOfWorld (wx : ℚ) 0).1 = Int.fdiv wx FLOOR_SIZE)
    ∧ (chunkCoordOfWorld (-1) 0).1 = 0 := by
  constructor
  · intro wx hwx
    have htrunc : truncToInt (wx : ℚ) = wx := by
      rw [truncToInt, Rat.num_intCast, Rat.den_intCast]
      exact Int.tdiv_one wx
    show Int.tdiv (truncToInt (wx : ℚ)) FLOOR_SIZE = Int.fdiv wx FLOOR_SIZE
    rw [htrunc, Int.fdiv_eq_tdiv hwx (by norm_num [FLOOR_SIZE])]
  · rfl

/-- Witness for C2 amended at `wx = 17`. -/
theorem c2_witness :
    0 ≤ (17 : ℤ) ∧ (chunkCoordOfWorld ((17 : ℤ) : ℚ) 0).1 = Int.fdiv 17 FLOOR_SIZE :=
  ⟨by norm_num, c2_amended.1 17 (by norm_num)⟩

/-- C3 counterexample: the claim says the rightmost column of chunk
`(cx, cz)` and the leftmost column of chunk `(cx+1, cz)` sample the noise
field at world coordinates one grid-step apart and not equal; already at
`cx = cz = 0`, `R = 1` the two sample x-coordinates are exactly equal
(`(0·8 + 4)·noise_scale = (1·8 − 4)·noise_scale`). -/
theorem c3_counterexample :
    sampleWorldX ((0 : ℤ), (0 : ℤ)) 1 1 = sampleWorldX ((1 : ℤ), (0 : ℤ)) 1 0 := by
  norm_num [sampleWorldX, localPos, noise_scale, FLOOR_SIZE]

/-- C3 amended: for every chunk coordinate `(cx, cz)` and resolution
`R ≥ 1`, the rightmost column (grid `x = R`) of chunk `(cx, cz)` and the
leftmost column (grid `x = 0`) of chunk `(cx+1, cz)` sample the noise
field at exactly the same world coordinates (`0` apart, not one
grid-step): adjacent chunks share their boundary sample column, which is
what makes the terrain seam exact. -/
theorem c3_amended (cx cz : ℤ) (R z : ℕ) (hR : 1 ≤ R) :
    sampleWorldX (cx, cz) R R = sampleWorldX (cx + 1, cz) R 0
    ∧ sampleWorldZ (cx, cz) R z = sampleWorldZ (cx + 1, cz) R z := by
  have hRQ : (R : ℚ) ≠ 0 := Nat.cast_ne_zero.mpr (by omega)
  constructor
  · show (((cx * FLOOR_SIZE : ℤ) : ℚ) + localPos R R) * noise_scale
      = ((((cx + 1) * FLOOR_SIZE : ℤ) : ℚ) + localPos R 0) * noise_scale
    rw [localPos, localPos, noise_scale, FLOOR_SIZE]
    push_cast
    field_simp
    ring
  · rfl

/-- Witness for C3 amended at `cx = 2`, `cz = -3`, `R = 4`, `z = 1`. -/
theorem c3_witness :
    1 ≤ 4
    ∧ (sampleWorldX (2, -3) 4 4 = sampleWorldX (2 + 1, -3) 4 0
      ∧ sampleWorldZ (2, -3) 4 1 = sampleWorldZ (2 + 1, -3) 4 1) :=
  ⟨by norm_num, c3_amended 2 (-3) 4 1 (by norm_num)⟩

/-- C4: starting from an empty `ChunkIndex`, one streaming tick with the
observer in chunk `(0, 0)` and `spawn_radius = 1` (any despawn radius,
any fresh-entity counter) leaves the index holding exactly the nine
coordinates `\x7b-1,0,1\x7d × \x7b-1,0,1\x7d` and no others. -/
theorem c4_spawn_completeness (d : ℤ) (nextEntity : ℕ) :
    (update_chunk_index [] nextEntity (0, 0) ⟨1, d⟩).index.map Prod.fst
      = [(-1, -1), (0, -1), (1, -1), (-1, 0), (0, 0), (1, 0), (-1, 1), (0, 1), (1, 1)] := by
  have hrem : removedEntries [] (0, 0) ⟨1, d⟩ = [] := by
    rw [removedEntries]
    split <;> rfl
  rw [update_index_eq, hrem]
  simp only [List.map_nil, List.nil_append]
  rw [List.filter_eq_self.mpr (fun a _ => by simp)]
  rw [numberFrom_map_fst]
  decide

/-- The state after the C4 scenario tick: nine chunks around `(0, 0)`
spawned with entities `0..9`, using `spawn_radius = 1, despawn_radius = 2`. -/
def c4state : TickResult := update_chunk_index [] 0 (0, 0) ⟨1, 2⟩

/-- One further tick from `c4state` with the observer moved to chunk
`(5, 0)` and the same policy. -/
def c5state : TickResult := update_chunk_index c4state.index c4state.next (5, 0) ⟨1, 2⟩

/-- C5: starting from the nine-chunk index around `(0, 0)`, after one tick
with the observer in chunk `(5, 0)` and `spawn_radius = 1, despawn_radius
= 2`: every original chunk with `|coord.x - 5| > 2` is removed from the
index and its entity destroyed exactly once, and every original chunk
with `|coord.x - 5| ≤ 2` stays in the index with its entity unchanged and
is not regenerated. -/
theorem c5_despawn_hysteresis :
    ∀ e ∈ c4state.index,
      (2 < |e.1.1 - 5| →
        findEntity c5state.index e.1 = none ∧ c5state.destroyed.count e.2 = 1)
      ∧ (|e.1.1 - 5| ≤ 2 →
        findEntity c5state.index e.1 = some e.2 ∧ e.1 ∉ c5state.spawned) := by
  decide

/-- Witness for C5 at the original chunk `(-1, -1)` with entity `0`. -/
theorem c5_witness :
    ((((-1 : ℤ), (-1 : ℤ)), 0) ∈ c4state.index)
    ∧ ((2 < |(-1 : ℤ) - 5| →
        findEntity c5state.index ((-1 : ℤ), (-1 : ℤ)) = none
          ∧ c5state.destroyed.count 0 = 1)
      ∧ (|(-1 : ℤ) - 5| ≤ 2 →
        findEntity c5state.index ((-1 : ℤ), (-1 : ℤ)) = some 0
          ∧ ((-1 : ℤ), (-1 : ℤ)) ∉ c5state.spawned)) :=
  ⟨by decide, c5_despawn_hysteresis (((-1 : ℤ), (-1 : ℤ)), 0) (by decide)⟩

/-- First tick of the C6 counterexample scenario: misconfigured policy
`spawn_radius = 1, despawn_radius = 0`, observer fixed in chunk `(0, 0)`,
starting from an index holding only chunk `(1, 0)`. -/
def c6tickA : TickResult := update_chunk_index [((1, 0), 0)] 1 (0, 0) ⟨1, 0⟩

/-- Second tick of the C6 counterexample scenario, observer unmoved. -/
def c6tickB : TickResult := update_chunk_index c6tickA.index c6tickA.next (0, 0) ⟨1, 0⟩

/-- C6 counterexample: with `spawn_radius = 1 > despawn_radius = 0` and
the observer unmoved in chunk `(0, 0)`, the second tick both changes the
index contents (it despawns the seven just-spawned off-center chunks) and
issues a generation call (for `(1, 0)`, despawned by the first tick), so
the claimed unconditional idempotence is false. -/
theorem c6_counterexample :
    ¬(c6tickB.index = c6tickA.index ∧ c6tickB.spawned = []) := by
  decide

/-- C6 amended: provided the policy is the intended one — despawning
disabled (`despawn_radius < 0`) or `spawn_radius ≤ despawn_radius` —
running the streaming tick twice in a row from any state with no observer
movement leaves the index identical to the state after the first tick and
the second tick issues zero generation calls. -/
theorem c6_idempotent_spawning (idx : List ((ℤ × ℤ) × ℕ)) (n : ℕ) (loc : ℤ × ℤ)
    (s : ChunkRenderSettings)
    (hs : s.despawn_radius < 0 ∨ s.spawn_radius ≤ s.despawn_radius) :
    (update_chunk_index (update_chunk_index idx n loc s).index
        (update_chunk_index idx n loc s).next loc s).index
      = (update_chunk_index idx n loc s).index
    ∧ (update_chunk_index (update_chunk_index idx n loc s).index
        (update_chunk_index idx n loc s).next loc s).spawned = [] := by
  have hsk2 : spawnKeys (update_chunk_index idx n loc s).index loc s.spawn_radius = [] :=
    spawnKeys_after_tick_nil (fun k hc => spawn_square_not_removed hs k hc)
  have hrem2 : removedEntries (update_chunk_index idx n loc s).index loc s = [] := by
    rcases lt_or_le s.despawn_radius 0 with hneg | hpos
    · rw [removedEntries, if_neg (by omega)]
    · rcases hs with hcontra | hle
      · omega
      · exact removed_after_tick_nil hpos hle
  constructor
  · rw [update_index_eq, hsk2, hrem2]
    simp only [numberFrom, List.append_nil, List.map_nil]
    exact List.filter_eq_self.mpr (fun a _ => by simp)
  · rw [update_spawned_eq, hsk2]

/-- Witness for C6 amended: empty start, observer at `(0, 0)`, the
default-style policy `spawn_radius = 1, despawn_radius = 2`. -/
theorem c6_witness :
    ((⟨1, 2⟩ : ChunkRenderSettings).despawn_radius < 0
      ∨ (⟨1, 2⟩ : ChunkRenderSettings).spawn_radius
          ≤ (⟨1, 2⟩ : ChunkRenderSettings).despawn_radius)
    ∧ ((update_chunk_index (update_chunk_index [] 0 (0, 0) ⟨1, 2⟩).index
          (update_chunk_index [] 0 (0, 0) ⟨1, 2⟩).next (0, 0) ⟨1, 2⟩).index
        = (update_chunk_index [] 0 (0, 0) ⟨1, 2⟩).index
      ∧ (update_chunk_index (update_chunk_index [] 0 (0, 0) ⟨1, 2⟩).index
          (update_chunk_index [] 0 (0, 0) ⟨1, 2⟩).next (0, 0) ⟨1, 2⟩).spawned = []) :=
  ⟨Or.inr (by norm_num), c6_idempotent_spawning [] 0 (0, 0) ⟨1, 2⟩ (Or.inr (by norm_num))⟩

/-- C7: with `despawn_radius = -1`, over any sequence of ticks — each with
an arbitrary observer chunk location and spawn radius — no entry is ever
removed: every starting entry is still in the index afterwards, and the
chunk count is monotonically non-decreasing. -/
theorem c7_disabled_despawn_monotone :
    ∀ (steps : List ((ℤ × ℤ) × ℤ)) (idx : List ((ℤ × ℤ) × ℕ)) (n : ℕ),
      (∀ e ∈ idx, e ∈ (runTicksNoDespawn steps idx n).1)
      ∧ idx.length ≤ (runTicksNoDespawn steps idx n).1.length
  | [], idx, n => ⟨fun _ he => he, le_refl _⟩
  | (loc, r) :: rest, idx, n => by
    have hstep : (update_chunk_index idx n loc ⟨r, -1⟩).index
        = idx ++ numberFrom n (spawnKeys idx loc r) :=
      update_index_of_neg_despawn (by norm_num)
    have ih := c7_disabled_despawn_monotone rest (update_chunk_index idx n loc ⟨r, -1⟩).index
      (update_chunk_index idx n loc ⟨r, -1⟩).next
    constructor
    · intro e he
      show e ∈ (runTicksNoDespawn rest (update_chunk_index idx n loc ⟨r, -1⟩).index
        (update_chunk_index idx n loc ⟨r, -1⟩).next).1
      exact ih.1 e (by rw [hstep]; exact List.mem_append_left _ he)
    · show idx.length ≤ (runTicksNoDespawn rest (update_chunk_index idx n loc ⟨r, -1⟩).index
        (update_chunk_index idx n loc ⟨r, -1⟩).next).1.length
      refine le_trans ?_ ih.2
      rw [hstep, List.length_append]
      omega

/-- Witness for C7: one starting entry, two ticks with moving observer. -/
theorem c7_witness :
    (((0 : ℤ), (0 : ℤ)), 7)
      ∈ (runTicksNoDespawn [((1, 2), 3), ((-4, 5), 0)] [(((0 : ℤ), (0 : ℤ)), 7)] 1).1 :=
  (c7_disabled_despawn_monotone [((1, 2), 3), ((-4, 5), 0)] [(((0 : ℤ), (0 : ℤ)), 7)] 1).1
    (((0 : ℤ), (0 : ℤ)), 7) (by decide)

/-- C8: for every base generator family, layer count `L` and input
`(x, z)`, the layered noise field built by `LayeredPerlin::new`
(generators seeded `0..L`, lacunarity `2.0`, persistance `0.5`) evaluates
to the sum over `i < L` of `base i (x · 2^i) (z · 2^i) · (1/2)^i`, i.e.
the spec's geometric frequency/amplitude recurrences. -/
theorem c8_layered_noise_formula (base : ℕ → ℚ → ℚ → ℚ) (L : ℕ) (x z : ℚ) :
    (LayeredPerlin.new base L).get x z = layeredNoiseSpec base L x z := by
  show LayeredPerlin.getAux x z 2 (1 / 2) ((List.range L).map base) 1 1 0
    = layeredNoiseSpec base L x z
  rw [List.range_eq_range' L,
    LayeredPerlin.getAux_sum base x z L 0 1 1 0, layeredNoiseSpec]
  rw [zero_add]
  refine Finset.sum_congr rfl (fun i _ => ?_)
  have h1 : 0 + i = i := by omega
  have h2 : x * (1 * 2 ^ i) = x * 2 ^ i := by ring
  have h3 : z * (1 * 2 ^ i) = z * 2 ^ i := by ring
  have h4 : 1 * (1 / 2 : ℚ) ^ i = (1 / 2 : ℚ) ^ i := by ring
  rw [h1, h2, h3, h4]

/-- C9: the noise field and the mesh builder are deterministic — they are
pure functions of the seed-indexed base family and their arguments, so
two evaluations of `LayeredPerlin::get` at the same input (the spec's
`(3.14, -2.71)`) agree, and two calls of `generate_heightfield_mesh` with
equal offset and resolution return identical positions, UVs, indices and
height matrix. -/
theorem c9_determinism (base : ℕ → ℚ → ℚ → ℚ) (o1 o2 : ℤ × ℤ) (R1 R2 : ℕ)
    (ho : o1 = o2) (hR : R1 = R2) :
    (LayeredPerlin.new base 8).get (157 / 50) (-(271 / 100))
      = (LayeredPerlin.new base 8).get (157 / 50) (-(271 / 100))
    ∧ generate_heightfield_mesh base o1 R1 = generate_heightfield_mesh base o2 R2 := by
  subst ho
  subst hR
  exact ⟨rfl, rfl⟩

/-- Witness for C9 at `offset = (0, 0)`, `R = 1`. -/
theorem c9_witness :
    ((0, 0) : ℤ × ℤ) = ((0, 0) : ℤ × ℤ) ∧ (1 : ℕ) = 1
    ∧ ((LayeredPerlin.new zeroNoise 8).get (157 / 50) (-(271 / 100))
        = (LayeredPerlin.new zeroNoise 8).get (157 / 50) (-(271 / 100))
      ∧ generate_heightfield_mesh zeroNoise (0, 0) 1
        = generate_heightfield_mesh zeroNoise (0, 0) 1) :=
  ⟨rfl, rfl, c9_determinism zeroNoise (0, 0) (0, 0) 1 1 rfl rfl⟩

/-- C10: every triangle index emitted by `generate_heightfield_mesh` is
strictly below `(R + 1)^2`, and the vertex list has exactly `(R + 1)^2`
entries, so indexing the vertex list with an emitted index never goes out
of bounds.  (Stated for every `R`, which subsumes the claim's `R ≥ 1`.) -/
theorem c10_indices_in_bounds (base : ℕ → ℚ → ℚ → ℚ) (offset : ℤ × ℤ) (R : ℕ) :
    (∀ i ∈ (generate_heightfield_mesh base offset R).1.indices, i < (R + 1) ^ 2)
    ∧ (generate_heightfield_mesh base offset R).1.positions.length = (R + 1) ^ 2 := by
  constructor
  · intro i hi
    rw [show (generate_heightfield_mesh base offset R).1.indices
        = concatAll ((List.range R).map (fun x =>
            concatAll ((List.range R).map (fun z => quadIndices R x z)))) from rfl] at hi
    rw [mem_concatAll] at hi
    obtain ⟨l, hl, hil⟩ := hi
    obtain ⟨x, hx, rfl⟩ := List.mem_map.mp hl
    rw [mem_concatAll] at hil
    obtain ⟨l2, hl2, hil2⟩ := hil
    obtain ⟨z, hz, rfl⟩ := List.mem_map.mp hl2
    rw [List.mem_range] at hx hz
    have hsq : (R + 1) ^ 2 = R * (R + 1) + R + 1 := by ring
    have hxle : (x + 1) * (R + 1) ≤ R * (R + 1) :=
      Nat.mul_le_mul_right _ (by omega)
    have hbound : ∀ v : ℕ, v ≤ (x + 1) * (R + 1) + z + 1 → v % 4294967296 < (R + 1) ^ 2 := by
      intro v hv
      have hmod : v % 4294967296 ≤ v := Nat.mod_le v 4294967296
      have : v ≤ R * (R + 1) + R := by omega
      omega
    simp only [quadIndices, List.mem_cons, List.not_mem_nil, or_false] at hil2
    rcases hil2 with rfl | rfl | rfl | rfl | rfl | rfl
    · exact hbound _ (by omega)
    · refine hbound _ ?_
      have : x * (R + 1) ≤ (x + 1) * (R + 1) := Nat.mul_le_mul_right _ (by omega)
      omega
    · refine hbound _ ?_
      have : x * (R + 1) ≤ (x + 1) * (R + 1) := Nat.mul_le_mul_right _ (by omega)
      omega
    · exact hbound _ (by omega)
    · refine hbound _ ?_
      have : x * (R + 1) ≤ (x + 1) * (R + 1) := Nat.mul_le_mul_right _ (by omega)
      omega
    · exact hbound _ (by omega)
  · rw [show (generate_heightfield_mesh base offset R).1.positions
        = concatAll ((List.range (R + 1)).map (fun x =>
            (List.range (R + 1)).map (fun z =>
              (localPos R x, heightAt base offset R x z, localPos R z)))) from rfl]
    rw [length_concatAll, List.map_map]
    have hconst : ((List.range (R + 1)).map
        (List.length ∘ fun x => (List.range (R + 1)).map (fun z =>
          (localPos R x, heightAt base offset R x z, localPos R z))))
        = (List.range (R + 1)).map (fun _ => R + 1) := by
      refine List.map_congr_left (fun x _ => ?_)
      simp [Function.comp]
    rw [hconst]
    rw [List.map_const']
    rw [List.sum_replicate, List.length_range]
    rw [smul_eq_mul]
    ring

/-- Witness for C10: the first emitted index of the `R = 1` mesh is in
bounds. -/
theorem c10_witness :
    (2 ∈ (generate_heightfield_mesh zeroNoise (0, 0) 1).1.indices → 2 < (1 + 1) ^ 2)
    ∧ (generate_heightfield_mesh zeroNoise (0, 0) 1).1.positions.length = (1 + 1) ^ 2 :=
  ⟨fun h => (c10_indices_in_bounds zeroNoise (0, 0) 1).1 2 h,
    (c10_indices_in_bounds zeroNoise (0, 0) 1).2⟩
